import Mathlib

/-!
Shallow embedding of file-monitor.py (a log-file tailing server).

The Python program keeps, per monitor, two insertion-ordered defaultdicts
(counters : name → int, stores : name → list of lines), an ordered rule
list, a partial-line buffer (self.data) and an optional open file handle.
We model the dicts as association lists (which preserve Python's dict
insertion order), the file handle as its read offset, and the compiled
regex of a rule as an abstract match function returning the tuple of
captured groups on success.
-/

/-- Association lists standing for Python dicts: counters dict. -/
abbrev CDict := List (String × Nat)

/-- Association lists standing for Python dicts: stores dict. -/
abbrev SDict := List (String × List String)

/-- Dict lookup: first binding of the key, if any. -/
def lookupD {α : Type} : List (String × α) → String → Option α
  | [], _ => none
  | (k, v) :: t, key => if k = key then some v else lookupD t key

/-- Python defaultdict `d[k]` read: returns the stored value, or inserts
the default at the end of the insertion order and returns it. -/
def dGetD {α : Type} (d : List (String × α)) (key : String) (default : α) :
    α × List (String × α) :=
  match lookupD d key with
  | some v => (v, d)
  | none => (default, d ++ [(key, default)])

/-- Python `counters[counter] += 1` on a defaultdict(int): update in place
if present, else insert with value 1 at the end. -/
def dIncr : CDict → String → CDict
  | [], key => [(key, 1)]
  | (k, v) :: t, key =>
      if k = key then (k, v + 1) :: t else (k, v) :: dIncr t key

/-- Python `stores[store].append(line)` on a defaultdict(list): append to
the stored list if present, else insert the singleton list at the end. -/
def dAppend : SDict → String → String → SDict
  | [], key, x => [(key, [x])]
  | (k, v) :: t, key, x =>
      if k = key then (k, v ++ [x]) :: t else (k, v) :: dAppend t key x

/-- Observation: current value of a counter (0 when absent, matching
defaultdict(int) semantics). -/
def counterVal (d : CDict) (key : String) : Nat := (lookupD d key).getD 0

/-- Observation: current contents of a store (empty when absent). -/
def storeVal (d : SDict) (key : String) : List String := (lookupD d key).getD []

/-- The loop `for counter in self.counters: counters[counter] += 1`. -/
def incAll : List String → CDict → CDict
  | [], d => d
  | t :: ts, d => incAll ts (dIncr d t)

/-- The loop `for store in self.stores: stores[store].append(line)`. -/
def appendAll : List String → String → SDict → SDict
  | [], _, d => d
  | t :: ts, x, d => appendAll ts x (dAppend d t x)

/-- Occurrences of a name in a target list (a target may repeat). -/
def countOcc (key : String) : List String → Nat
  | [] => 0
  | s :: t => (if s = key then 1 else 0) + countOcc key t

/-- Python `sep.join(parts)`. -/
def sjoin (sep : String) : List String → String
  | [] => ""
  | [s] => s
  | s :: t => s ++ sep ++ sjoin sep t

/-- Split a character list at the first occurrence of sep:
returns (part before sep, part after sep), or none when sep is absent. -/
def splitAtFirst (sep : Char) : List Char → Option (List Char × List Char)
  | [] => none
  | c :: cs =>
      if c = sep then some ([], cs)
      else
        match splitAtFirst sep cs with
        | none => none
        | some (a, b) => some (c :: a, b)

/-- Python `s.rsplit(sep, 1)` when it actually splits: (before last sep,
after last sep); none when sep is absent (the length-1 result). -/
def rsplitLast (sep : Char) (l : List Char) : Option (List Char × List Char) :=
  match splitAtFirst sep l.reverse with
  | none => none
  | some (a, b) => some (b.reverse, a.reverse)

/-- Single pass behind splitlinesPy.  The flag records that the previous
character was a carriage return, so that a newline directly after it is
the second half of one carriage-return-newline boundary and opens no
extra empty line. -/
def splitlinesCR : Bool → List Char → List (List Char)
  | _, [] => []
  | afterCR, c :: cs =>
      if c = '\n' then
        if afterCR then splitlinesCR false cs
        else [] :: splitlinesCR false cs
      else if c = '\r' then [] :: splitlinesCR true cs
      else
        match splitlinesCR false cs with
        | [] => [[c]]
        | h :: t => (c :: h) :: t

/-- Python 2 `s.splitlines()` on a byte string, as called in
FileMonitor.read (line 276): the line boundaries are the newline, the
bare carriage return, and the carriage-return-newline pair (one boundary,
not two).  A trailing boundary produces no trailing empty line and the
empty string yields no lines. -/
def splitlinesPy (l : List Char) : List (List Char) := splitlinesCR false l

/-- Boolean prefix test on character lists. -/
def isPrefixOfL : List Char → List Char → Bool
  | [], _ => true
  | _ :: _, [] => false
  | a :: as, b :: bs => a == b && isPrefixOfL as bs

/-- Boolean contiguous-segment test: does seg occur inside l. -/
def containsSeg (seg : List Char) : List Char → Bool
  | [] => isPrefixOfL seg []
  | c :: cs => isPrefixOfL seg (c :: cs) || containsSeg seg cs

/-- The buffer-splitting step of FileMonitor.read (lines 273-277):
`contents = self.data.rsplit('\n', 1)`; when it splits, the part before
the last newline is cut into complete lines and the part after it becomes
the new buffer; when there is no newline nothing is emitted and the whole
buffer is kept. -/
def splitBufferL (l : List Char) : List (List Char) × List Char :=
  match rsplitLast '\n' l with
  | none => ([], l)
  | some (before, after) => (splitlinesPy before, after)

/-- String-level wrapper of splitBufferL. -/
def splitBufferS (s : String) : List String × String :=
  ((splitBufferL s.data).1.map String.mk, String.mk (splitBufferL s.data).2)

/-- First n characters of a string (model of a bounded file read). -/
def strTake (s : String) (n : Nat) : String := ⟨s.data.take n⟩

/-- Drop the first n characters of a string. -/
def strDrop (s : String) (n : Nat) : String := ⟨s.data.drop n⟩

/-- Model of `self.file.read(self.block_size)` on a handle positioned at
pos within a file whose full current content is given: the next n
characters starting at pos (fewer at end of file). -/
def sliceFrom (content : String) (pos n : Nat) : String :=
  strTake (strDrop content pos) n

/-- A Rule (lines 179-212).  The compiled regex self.re is embedded
abstractly: matcher line = none models re.search finding no match, and
matcher line = some groups models a match whose groups() tuple is the
given list of captured strings (empty list = a pattern with no groups). -/
structure Rule where
  matcher : String → Option (List String)
  counters : List String
  stores : List String
  stop : Bool

/-- Rule.check (lines 196-212): on a match, substitute the joined capture
groups for the line when there is at least one group, increment every
target counter and append the (possibly substituted) line to every target
store.  The source's `return self.stop` sits outside the `if match:`
block, so the stop flag is returned whether or not the regex matched. -/
def Rule.check (r : Rule) (line : String) (counters : CDict) (stores : SDict) :
    CDict × SDict × Bool :=
  match r.matcher line with
  | some groups =>
      let line := if groups.isEmpty then line else sjoin " " groups
      (incAll r.counters counters, appendAll r.stores line stores, r.stop)
  | none => (counters, stores, r.stop)

/-- The rule loop of FileMonitor.lineRead (lines 255-260): walk the rule
list in order, threading the dicts; stop as soon as check returns true. -/
def checkAll (rules : List Rule) (line : String) (cs : CDict) (ss : SDict) :
    CDict × SDict :=
  match rules with
  | [] => (cs, ss)
  | r :: rest =>
      let t := r.check line cs ss
      if t.2.2 then (t.1, t.2.1) else checkAll rest line t.1 t.2.1

/-- A FileMonitor (lines 216-277).  data is the partial-line buffer;
file is the open handle modeled by its read offset (none = closed). -/
structure FileMonitor where
  name : String
  filename : String
  data : String
  block_size : Nat
  stores : SDict
  counters : CDict
  rules : List Rule
  file : Option Nat

/-- FileMonitor.__init__ (lines 227-234): empty buffer, empty defaultdicts,
no rules; the class attribute file starts as None (closed). -/
def FileMonitor.init (name filename : String) (block_size : Nat) : FileMonitor :=
  ⟨name, filename, "", block_size, [], [], [], none⟩

/-- FileMonitor.lineRead (lines 255-260). -/
def FileMonitor.lineRead (m : FileMonitor) (line : String) : FileMonitor :=
  let t := checkAll m.rules line m.counters m.stores
  { m with counters := t.1, stores := t.2 }

/-- The tail of FileMonitor.read after the block read (lines 271-277):
append the newly delivered chunk to the buffer, split at the last newline,
keep the remainder as the new buffer and feed each complete line to
lineRead in order. -/
def FileMonitor.ingest (m : FileMonitor) (chunk : String) : FileMonitor :=
  let p := splitBufferS (m.data ++ chunk)
  p.1.foldl FileMonitor.lineRead { m with data := p.2 }

/-- One block read from an already-open handle at offset pos:
`self.data += self.file.read(self.block_size)` followed by the buffer
split; the handle advances by the number of characters delivered. -/
def FileMonitor.readFrom (m : FileMonitor) (content : String) (pos : Nat) :
    FileMonitor :=
  let chunk := sliceFrom content pos m.block_size
  { m.ingest chunk with file := some (pos + chunk.data.length) }

/-- FileMonitor.read (lines 263-277).  openOk models whether
`open(self.filename)` succeeds; content is the full current content of
the target file.  A failed open is caught (`except IOError: ... return`)
and leaves the monitor untouched; a successful open positions the handle
at offset 0, exactly like Python's open, with no seek to end of file. -/
def FileMonitor.read (m : FileMonitor) (openOk : Bool) (content : String) :
    FileMonitor :=
  match m.file with
  | none => if openOk then m.readFrom content 0 else m
  | some pos => m.readFrom content pos

/-- The filename property setter (lines 242-247): close the handle if
open and store the new path.  It does not touch self.data. -/
def FileMonitor.setFilename (m : FileMonitor) (filename : String) : FileMonitor :=
  { m with file := none, filename := filename }

/-- MonitorsView.getChild (lines 72-73): `self.monitors[name]` on a plain
dict; a missing name raises an uncaught KeyError, modeled by none. -/
def MonitorsView.getChild (monitors : List (String × FileMonitor))
    (name : String) : Option FileMonitor :=
  lookupD monitors name

/-- CountersView.getChild (lines 137-138): `self.monitor.counters[name]`
on a defaultdict(int) — a missing name is silently created with value 0;
returns the value handed to CounterView together with the monitor whose
counters dict may have gained the key. -/
def CountersView.getChild (m : FileMonitor) (name : String) : Nat × FileMonitor :=
  let t := dGetD m.counters name 0
  (t.1, { m with counters := t.2 })

/-- CountersView.render (lines 132-134): the counter names joined by
newlines, in dict insertion order, with a trailing newline. -/
def CountersView.render (m : FileMonitor) : String :=
  sjoin "\n" (m.counters.map Prod.fst) ++ "\n"

/-- StoresView.getChild (lines 115-116): `self.monitor.stores[name]` on a
defaultdict(list) — a missing name is silently created as the empty list. -/
def StoresView.getChild (m : FileMonitor) (name : String) :
    List String × FileMonitor :=
  let t := dGetD m.stores name []
  (t.1, { m with stores := t.2 })

/-- StoresView.render (lines 110-112). -/
def StoresView.render (m : FileMonitor) : String :=
  sjoin "\n" (m.stores.map Prod.fst) ++ "\n"

/-- The monitor-level operations a lifetime consists of: scheduled read
cycles, single line evaluations, defaultdict-backed query reads, and
filename changes. -/
inductive MOp where
  | readOp (openOk : Bool) (content : String)
  | lineOp (line : String)
  | queryCounterOp (name : String)
  | queryStoreOp (name : String)
  | setFilenameOp (filename : String)

/-- Apply one operation to a monitor. -/
def applyOp (m : FileMonitor) : MOp → FileMonitor
  | .readOp ok content => m.read ok content
  | .lineOp line => m.lineRead line
  | .queryCounterOp name => (CountersView.getChild m name).2
  | .queryStoreOp name => (StoresView.getChild m name).2
  | .setFilenameOp f => m.setFilename f

/-- Apply a sequence of operations in order. -/
def applyOps (m : FileMonitor) (ops : List MOp) : FileMonitor :=
  ops.foldl applyOp m

/-- A rule whose regex matches every line with no capture groups, records
every matched line into the store named all, and does not stop: a
transparent observer of exactly the lines fed to the rule list. -/
def recRule : Rule := ⟨fun _ => some [], [], ["all"], false⟩

/-- A freshly constructed, closed monitor with the observer rule and a
given block size. -/
def m3gen (bs : Nat) : FileMonitor :=
  ⟨"m", "/var/log/app.log", "", bs, [], [], [recRule], none⟩

/-- An open monitor (handle at offset 0) with the observer rule, as built
in main() with the default block size. -/
def m6 : FileMonitor := ⟨"junk", "/tmp/junk.txt", "", 8192, [], [], [recRule], some 0⟩

/-- A rule whose regex matches nothing, with stop set to true. -/
def r1c1 : Rule := ⟨fun _ => none, [], [], true⟩

/-- A rule whose regex matches every line, incrementing the counter c. -/
def r2c1 : Rule := ⟨fun _ => some [], ["c"], [], false⟩

/-- A monitor holding buffered partial-line content from its current file. -/
def m2c : FileMonitor := ⟨"m", "/tmp/old.log", "stale", 8192, [], [], [], some 5⟩

/-- A monitor that has already seen one counter and one store. -/
def m10 : FileMonitor :=
  ⟨"m", "/tmp/app.log", "", 8192, [("s0", ["x"])], [("a", 1)], [], none⟩

/-- A rule with one capture group, appending to the store errors. -/
def r5 : Rule := ⟨fun _ => some ["disk full"], [], ["errors"], false⟩

/-- A rule with no capture groups, appending to the store raw. -/
def r5b : Rule := ⟨fun _ => some [], [], ["raw"], false⟩

/-! Helper lemmas about the dict model. -/


theorem lookupD_eq_none {α : Type} (d : List (String × α)) (key : String)
    (h : key ∉ d.map Prod.fst) : lookupD d key = none := by
  induction d with
  | nil => rfl
  | cons p t ih =>
      obtain ⟨k, v⟩ := p
      simp only [List.map_cons, List.mem_cons] at h
      push_neg at h
      simp [lookupD, Ne.symm h.1, ih h.2]

theorem lookupD_append_of_none {α : Type} (d e : List (String × α)) (n : String)
    (h : lookupD d n = none) : lookupD (d ++ e) n = lookupD e n := by
  induction d with
  | nil => rfl
  | cons p t ih =>
      obtain ⟨k, v⟩ := p
      by_cases hk : k = n
      · simp [lookupD, hk] at h
      · simp only [lookupD, hk, if_false] at h ⊢
        simp [List.cons_append, lookupD, hk, ih h]

theorem lookupD_append_of_some {α : Type} (d e : List (String × α)) (n : String)
    (v : α) (h : lookupD d n = some v) : lookupD (d ++ e) n = some v := by
  induction d with
  | nil => simp [lookupD] at h
  | cons p t ih =>
      obtain ⟨k, w⟩ := p
      by_cases hk : k = n
      · simp only [lookupD, hk, if_true] at h ⊢
        simpa using h
      · simp only [lookupD, hk, if_false] at h ⊢
        exact ih h

theorem counterVal_cons (k : String) (v : Nat) (t : CDict) (n : String) :
    counterVal ((k, v) :: t) n = if k = n then v else counterVal t n := by
  by_cases h : k = n <;> simp [counterVal, lookupD, h]

theorem storeVal_cons (k : String) (v : List String) (t : SDict) (n : String) :
    storeVal ((k, v) :: t) n = if k = n then v else storeVal t n := by
  by_cases h : k = n <;> simp [storeVal, lookupD, h]

theorem counterVal_dIncr (d : CDict) (k n : String) :
    counterVal (dIncr d k) n = counterVal d n + (if k = n then 1 else 0) := by
  induction d with
  | nil =>
      by_cases h : k = n <;> simp [dIncr, counterVal, lookupD, h]
  | cons p t ih =>
      obtain ⟨k', v⟩ := p
      by_cases h1 : k' = k
      · rw [show dIncr ((k', v) :: t) k = (k', v + 1) :: t from by simp [dIncr, h1]]
        by_cases h2 : k' = n
        · have hkn : k = n := h1.symm.trans h2
          rw [counterVal_cons, counterVal_cons, if_pos h2, if_pos h2, if_pos hkn]
        · have hkn : ¬ k = n := fun hh => h2 (h1.trans hh)
          rw [counterVal_cons, counterVal_cons, if_neg h2, if_neg h2, if_neg hkn]
          omega
      · rw [show dIncr ((k', v) :: t) k = (k', v) :: dIncr t k from by
          simp [dIncr, h1]]
        by_cases h2 : k' = n
        · have hkn : ¬ k = n := fun hh => h1 (h2.trans hh.symm)
          rw [counterVal_cons, counterVal_cons, if_pos h2, if_pos h2, if_neg hkn]
          omega
        · rw [counterVal_cons, counterVal_cons, if_neg h2, if_neg h2, ih]

theorem storeVal_dAppend (d : SDict) (k x n : String) :
    storeVal (dAppend d k x) n =
      if k = n then storeVal d n ++ [x] else storeVal d n := by
  induction d with
  | nil =>
      by_cases h : k = n <;> simp [dAppend, storeVal, lookupD, h]
  | cons p t ih =>
      obtain ⟨k', v⟩ := p
      by_cases h1 : k' = k
      · rw [show dAppend ((k', v) :: t) k x = (k', v ++ [x]) :: t from by
          simp [dAppend, h1]]
        by_cases h2 : k' = n
        · have hkn : k = n := h1.symm.trans h2
          rw [storeVal_cons, storeVal_cons, if_pos h2, if_pos h2, if_pos hkn]
        · have hkn : ¬ k = n := fun hh => h2 (h1.trans hh)
          rw [storeVal_cons, storeVal_cons, if_neg h2, if_neg h2, if_neg hkn]
      · rw [show dAppend ((k', v) :: t) k x = (k', v) :: dAppend t k x from by
          simp [dAppend, h1]]
        by_cases h2 : k' = n
        · have hkn : ¬ k = n := fun hh => h1 (h2.trans hh.symm)
          rw [storeVal_cons, storeVal_cons, if_pos h2, if_pos h2, if_neg hkn]
        · rw [storeVal_cons, storeVal_cons, if_neg h2, if_neg h2, ih]

theorem counterVal_incAll (ts : List String) (d : CDict) (n : String) :
    counterVal (incAll ts d) n = counterVal d n + countOcc n ts := by
  induction ts generalizing d with
  | nil => simp [incAll, countOcc]
  | cons t ts ih =>
      simp only [incAll, countOcc, ih, counterVal_dIncr]
      omega

theorem storeVal_appendAll (ts : List String) (x : String) (d : SDict)
    (n : String) :
    storeVal (appendAll ts x d) n =
      storeVal d n ++ List.replicate (countOcc n ts) x := by
  induction ts generalizing d with
  | nil => simp [appendAll, countOcc]
  | cons t ts ih =>
      simp only [appendAll, countOcc, ih, storeVal_dAppend]
      by_cases h : t = n
      · simp only [if_pos h, Nat.add_comm 1 (countOcc n ts),
          List.replicate_succ, List.append_assoc]
        rfl
      · simp [h]

theorem counterVal_dGetD (d : CDict) (k n : String) :
    counterVal ((dGetD d k 0).2) n = counterVal d n := by
  unfold dGetD
  cases h : lookupD d k with
  | some v => rfl
  | none =>
      simp only
      unfold counterVal
      cases h2 : lookupD d n with
      | some v => rw [lookupD_append_of_some _ _ _ _ h2]
      | none =>
          rw [lookupD_append_of_none _ _ _ h2]
          by_cases hk : k = n <;> simp [lookupD, hk]

theorem storeVal_dGetD (d : SDict) (k n : String) :
    storeVal ((dGetD d k []).2) n = storeVal d n := by
  unfold dGetD
  cases h : lookupD d k with
  | some v => rfl
  | none =>
      simp only
      unfold storeVal
      cases h2 : lookupD d n with
      | some v => rw [lookupD_append_of_some _ _ _ _ h2]
      | none =>
          rw [lookupD_append_of_none _ _ _ h2]
          by_cases hk : k = n <;> simp [lookupD, hk]

theorem dGetD_not_mem {α : Type} (d : List (String × α)) (k : String)
    (default : α) (h : k ∉ d.map Prod.fst) :
    (dGetD d k default).1 = default ∧
      (dGetD d k default).2.map Prod.fst = d.map Prod.fst ++ [k] := by
  unfold dGetD
  rw [lookupD_eq_none d k h]
  simp

/-! Helper lemmas about the line-splitting functions. -/

theorem splitAtFirst_eq_none (sep : Char) (l : List Char) :
    splitAtFirst sep l = none ↔ sep ∉ l := by
  induction l with
  | nil => simp [splitAtFirst]
  | cons c cs ih =>
      by_cases h : c = sep
      · subst h
        simp [splitAtFirst]
      · cases hc : splitAtFirst sep cs with
        | none =>
            have hm : sep ∉ cs := ih.mp hc
            simp [splitAtFirst, h, hc, hm, Ne.symm h]
        | some ab =>
            have hm : sep ∈ cs := by
              by_contra hmem
              rw [ih.mpr hmem] at hc
              cases hc
            simp [splitAtFirst, h, hc, hm]

theorem splitAtFirst_eq_some (sep : Char) :
    ∀ l a b : List Char, splitAtFirst sep l = some (a, b) →
      l = a ++ sep :: b ∧ sep ∉ a := by
  intro l
  induction l with
  | nil => intro a b h; cases h
  | cons c cs ih =>
      intro a b h
      by_cases hc : c = sep
      · subst hc
        rw [show splitAtFirst c (c :: cs) = some ([], cs) from by
          simp [splitAtFirst]] at h
        injection h with h1
        rw [Prod.mk.injEq] at h1
        obtain ⟨ha, hb⟩ := h1
        subst ha; subst hb
        exact ⟨rfl, by simp⟩
      · simp only [splitAtFirst, if_neg hc] at h
        cases hsp : splitAtFirst sep cs with
        | none => rw [hsp] at h; cases h
        | some ab =>
            obtain ⟨a', b'⟩ := ab
            rw [hsp] at h
            simp only [Option.some.injEq, Prod.mk.injEq] at h
            obtain ⟨ha, hb⟩ := h
            obtain ⟨hl, hmem⟩ := ih a' b' hsp
            subst hb
            refine ⟨?_, ?_⟩
            · rw [← ha]; simp [hl]
            · rw [← ha]
              intro hm
              rcases List.mem_cons.mp hm with hm1 | hm2
              · exact hc hm1.symm
              · exact hmem hm2

theorem rsplitLast_eq_none (sep : Char) (l : List Char) :
    rsplitLast sep l = none ↔ sep ∉ l := by
  constructor
  · intro h hm
    unfold rsplitLast at h
    cases hc : splitAtFirst sep l.reverse with
    | none => exact (splitAtFirst_eq_none sep l.reverse).mp hc (List.mem_reverse.mpr hm)
    | some ab => obtain ⟨a, b⟩ := ab; rw [hc] at h; cases h
  · intro h
    unfold rsplitLast
    rw [(splitAtFirst_eq_none sep l.reverse).mpr (fun hm => h (List.mem_reverse.mp hm))]

theorem rsplitLast_eq_some (sep : Char) (l before after : List Char)
    (h : rsplitLast sep l = some (before, after)) :
    l = before ++ sep :: after ∧ sep ∉ after := by
  unfold rsplitLast at h
  cases hc : splitAtFirst sep l.reverse with
  | none => rw [hc] at h; cases h
  | some ab =>
      obtain ⟨a, b⟩ := ab
      rw [hc] at h
      simp only [Option.some.injEq, Prod.mk.injEq] at h
      obtain ⟨hb, ha⟩ := h
      obtain ⟨hl, hmem⟩ := splitAtFirst_eq_some sep l.reverse a b hc
      subst hb; subst ha
      constructor
      · have h2 : l = l.reverse.reverse := (List.reverse_reverse l).symm
        rw [h2, hl]
        simp [List.reverse_append]
      · intro hm
        exact hmem (List.mem_reverse.mp hm)

theorem sCR_nil (b : Bool) : splitlinesCR b [] = [] := by cases b <;> rfl

theorem sCR_cons_nl_false (cs : List Char) :
    splitlinesCR false ('\n' :: cs) = [] :: splitlinesCR false cs := rfl

theorem sCR_cons_nl_true (cs : List Char) :
    splitlinesCR true ('\n' :: cs) = splitlinesCR false cs := rfl

theorem sCR_cons_cr (b : Bool) (cs : List Char) :
    splitlinesCR b ('\r' :: cs) = [] :: splitlinesCR true cs := by
  cases b <;> rfl

theorem sCR_cons_other (b : Bool) (c : Char) (cs : List Char)
    (h1 : ¬ c = '\n') (h2 : ¬ c = '\r') :
    splitlinesCR b (c :: cs) =
      match splitlinesCR false cs with
      | [] => [[c]]
      | h :: t => (c :: h) :: t := by
  simp only [splitlinesCR]
  rw [if_neg h1, if_neg h2]

theorem sCR_false_ne_nil (c : Char) (cs : List Char) :
    splitlinesCR false (c :: cs) ≠ [] := by
  by_cases h1 : c = '\n'
  · subst h1
    rw [sCR_cons_nl_false]
    exact List.cons_ne_nil _ _
  · by_cases h2 : c = '\r'
    · subst h2
      rw [sCR_cons_cr]
      exact List.cons_ne_nil _ _
    · rw [sCR_cons_other false c cs h1 h2]
      cases hsp : splitlinesCR false cs with
      | nil => exact List.cons_ne_nil _ _
      | cons hh t => exact List.cons_ne_nil _ _

theorem sCR_false_eq_nil (l : List Char) (h : splitlinesCR false l = []) :
    l = [] := by
  rcases l with _ | ⟨c, cs⟩
  · rfl
  · exact absurd h (sCR_false_ne_nil c cs)

theorem splitlinesCR_spec :
    ∀ (l : List Char) (b : Bool),
      (∀ x ∈ splitlinesCR b l, '\n' ∉ x ∧ '\r' ∉ x) ∧
      (∀ h t, splitlinesCR false l = h :: t →
        ∃ c rest, l ++ ['\n'] = h ++ c :: rest ∧ (c = '\n' ∨ c = '\r')) ∧
      (∀ x ∈ splitlinesCR b l,
        ∃ pre post c, l ++ ['\n'] = pre ++ x ++ c :: post ∧ (c = '\n' ∨ c = '\r')) := by
  intro l
  induction l with
  | nil =>
      intro b
      refine ⟨fun x hx => absurd hx ?_, fun h t ht => absurd ht ?_,
        fun x hx => absurd hx ?_⟩ <;> rw [sCR_nil] <;> simp
  | cons c cs ih =>
      intro b
      by_cases h1 : c = '\n'
      · subst h1
        refine ⟨?_, ?_, ?_⟩
        · cases b with
          | true =>
              intro x hx
              rw [sCR_cons_nl_true] at hx
              exact (ih false).1 x hx
          | false =>
              intro x hx
              rw [sCR_cons_nl_false] at hx
              rcases List.mem_cons.mp hx with hx1 | hx2
              · subst hx1; exact ⟨by simp, by simp⟩
              · exact (ih false).1 x hx2
        · intro h t ht
          rw [sCR_cons_nl_false] at ht
          have hh := (List.cons.inj ht).1
          exact ⟨'\n', cs ++ ['\n'], by simp [← hh], Or.inl rfl⟩
        · cases b with
          | true =>
              intro x hx
              rw [sCR_cons_nl_true] at hx
              obtain ⟨pre, post, cb, hpd, hcb⟩ := (ih false).2.2 x hx
              refine ⟨'\n' :: pre, post, cb, ?_, hcb⟩
              simp only [List.cons_append, List.append_assoc] at hpd ⊢
              rw [hpd]
          | false =>
              intro x hx
              rw [sCR_cons_nl_false] at hx
              rcases List.mem_cons.mp hx with hx1 | hx2
              · subst hx1
                exact ⟨[], cs ++ ['\n'], '\n', by simp, Or.inl rfl⟩
              · obtain ⟨pre, post, cb, hpd, hcb⟩ := (ih false).2.2 x hx2
                refine ⟨'\n' :: pre, post, cb, ?_, hcb⟩
                simp only [List.cons_append, List.append_assoc] at hpd ⊢
                rw [hpd]
      · by_cases h2 : c = '\r'
        · subst h2
          refine ⟨?_, ?_, ?_⟩
          · intro x hx
            rw [sCR_cons_cr] at hx
            rcases List.mem_cons.mp hx with hx1 | hx2
            · subst hx1; exact ⟨by simp, by simp⟩
            · exact (ih true).1 x hx2
          · intro h t ht
            rw [sCR_cons_cr] at ht
            have hh := (List.cons.inj ht).1
            exact ⟨'\r', cs ++ ['\n'], by simp [← hh], Or.inr rfl⟩
          · intro x hx
            rw [sCR_cons_cr] at hx
            rcases List.mem_cons.mp hx with hx1 | hx2
            · subst hx1
              exact ⟨[], cs ++ ['\n'], '\r', by simp, Or.inr rfl⟩
            · obtain ⟨pre, post, cb, hpd, hcb⟩ := (ih true).2.2 x hx2
              refine ⟨'\r' :: pre, post, cb, ?_, hcb⟩
              simp only [List.cons_append, List.append_assoc] at hpd ⊢
              rw [hpd]
        · obtain ⟨ihA, ihB, ihC⟩ := ih false
          cases hsp : splitlinesCR false cs with
          | nil =>
              have hnil : cs = [] := sCR_false_eq_nil cs hsp
              subst hnil
              have heq2 : splitlinesCR b [c] = [[c]] := by
                rw [sCR_cons_other b c [] h1 h2, sCR_nil false]
              have heqf2 : splitlinesCR false [c] = [[c]] := by
                rw [sCR_cons_other false c [] h1 h2, sCR_nil false]
              refine ⟨?_, ?_, ?_⟩
              · intro x hx
                rw [heq2] at hx
                simp only [List.mem_singleton] at hx
                subst hx
                constructor
                · intro hm
                  simp only [List.mem_singleton] at hm
                  exact h1 hm.symm
                · intro hm
                  simp only [List.mem_singleton] at hm
                  exact h2 hm.symm
              · intro h t ht
                rw [heqf2] at ht
                have hh := (List.cons.inj ht).1
                exact ⟨'\n', [], by simp [← hh], Or.inl rfl⟩
              · intro x hx
                rw [heq2] at hx
                simp only [List.mem_singleton] at hx
                subst hx
                exact ⟨[], [], '\n', by simp, Or.inl rfl⟩
          | cons h0 t0 =>
              have heq2 : splitlinesCR b (c :: cs) = (c :: h0) :: t0 := by
                rw [sCR_cons_other b c cs h1 h2, hsp]
              have heqf2 : splitlinesCR false (c :: cs) = (c :: h0) :: t0 := by
                rw [sCR_cons_other false c cs h1 h2, hsp]
              have hmem0 : h0 ∈ splitlinesCR false cs := by
                rw [hsp]
                exact List.mem_cons_self _ _
              refine ⟨?_, ?_, ?_⟩
              · intro x hx
                rw [heq2] at hx
                rcases List.mem_cons.mp hx with hx1 | hx2
                · subst hx1
                  obtain ⟨hA1, hA2⟩ := ihA h0 hmem0
                  constructor
                  · intro hm
                    rcases List.mem_cons.mp hm with hm1 | hm2
                    · exact h1 hm1.symm
                    · exact hA1 hm2
                  · intro hm
                    rcases List.mem_cons.mp hm with hm1 | hm2
                    · exact h2 hm1.symm
                    · exact hA2 hm2
                · exact ihA x (by rw [hsp]; exact List.mem_cons_of_mem _ hx2)
              · intro h t ht
                rw [heqf2] at ht
                have hh := (List.cons.inj ht).1
                obtain ⟨cb, rest, hb, hcb⟩ := ihB h0 t0 hsp
                refine ⟨cb, rest, ?_, hcb⟩
                rw [← hh]
                simp only [List.cons_append, List.append_assoc] at hb ⊢
                rw [hb]
              · intro x hx
                rw [heq2] at hx
                rcases List.mem_cons.mp hx with hx1 | hx2
                · subst hx1
                  obtain ⟨cb, rest, hb, hcb⟩ := ihB h0 t0 hsp
                  refine ⟨[], rest, cb, ?_, hcb⟩
                  simp only [List.nil_append, List.cons_append,
                    List.append_assoc] at hb ⊢
                  rw [hb]
                · obtain ⟨pre, post, cb, hpd, hcb⟩ :=
                    ihC x (by rw [hsp]; exact List.mem_cons_of_mem _ hx2)
                  refine ⟨c :: pre, post, cb, ?_, hcb⟩
                  simp only [List.cons_append, List.append_assoc] at hpd ⊢
                  rw [hpd]

theorem mem_splitlinesPy (l x : List Char) (hx : x ∈ splitlinesPy l) :
    ('\n' ∉ x ∧ '\r' ∉ x) ∧
      ∃ pre post c, l ++ ['\n'] = pre ++ x ++ c :: post ∧ (c = '\n' ∨ c = '\r') := by
  obtain ⟨hA, _, hC⟩ := splitlinesCR_spec l false
  exact ⟨hA x hx, hC x hx⟩

theorem isPrefixOfL_append : ∀ (a b : List Char), isPrefixOfL a (a ++ b) = true := by
  intro a
  induction a with
  | nil => intro b; rfl
  | cons x xs ih => intro b; simp [isPrefixOfL, ih]

theorem containsSeg_cons (seg : List Char) (c : Char) (cs : List Char) :
    containsSeg seg (c :: cs)
      = (isPrefixOfL seg (c :: cs) || containsSeg seg cs) := rfl

theorem containsSeg_of_decomp :
    ∀ (pre seg post l : List Char), l = pre ++ (seg ++ post) →
      containsSeg seg l = true := by
  intro pre
  induction pre with
  | nil =>
      intro seg post l h
      subst h
      rw [List.nil_append]
      cases h2 : seg ++ post with
      | nil =>
          have hseg : seg = [] := (List.append_eq_nil.mp h2).1
          subst hseg
          rfl
      | cons c cs =>
          rw [containsSeg_cons, ← h2, isPrefixOfL_append]
          simp
  | cons a pre' ih =>
      intro seg post l h
      subst h
      rw [List.cons_append, containsSeg_cons, ih seg post _ rfl]
      simp

theorem splitBufferL_rest_no_newline (l : List Char) :
    '\n' ∉ (splitBufferL l).2 := by
  unfold splitBufferL
  cases hr : rsplitLast '\n' l with
  | none => simpa using (rsplitLast_eq_none '\n' l).mp hr
  | some ba =>
      obtain ⟨before, after⟩ := ba
      simpa using (rsplitLast_eq_some '\n' l before after hr).2

theorem splitBufferL_no_newline_eq (l : List Char) (h : '\n' ∉ l) :
    splitBufferL l = ([], l) := by
  unfold splitBufferL
  rw [(rsplitLast_eq_none '\n' l).mpr h]

theorem splitBufferL_mem (l x : List Char) (hx : x ∈ (splitBufferL l).1) :
    ('\n' ∉ x ∧ '\r' ∉ x) ∧
      ∃ pre post c, l = pre ++ x ++ c :: post ∧ (c = '\n' ∨ c = '\r') := by
  unfold splitBufferL at hx
  cases hr : rsplitLast '\n' l with
  | none => rw [hr] at hx; cases hx
  | some ba =>
      obtain ⟨before, after⟩ := ba
      rw [hr] at hx
      simp only at hx
      obtain ⟨hbound, pre, post, cb, hpp, hcb⟩ := mem_splitlinesPy before x hx
      obtain ⟨hl, _⟩ := rsplitLast_eq_some '\n' l before after hr
      refine ⟨hbound, pre, post ++ after, cb, ?_, hcb⟩
      rw [hl]
      have h2 : before ++ '\n' :: after = (before ++ ['\n']) ++ after := by simp
      rw [h2, hpp]
      simp [List.append_assoc]

/-! Helper lemmas about the monitor operations. -/

theorem str_data_append (s t : String) : (s ++ t).data = s.data ++ t.data := by
  cases s; cases t; rfl

theorem str_empty_append (s : String) : "" ++ s = s := by
  cases s; rfl

theorem lineRead_data (m : FileMonitor) (line : String) :
    (m.lineRead line).data = m.data := rfl

theorem foldl_lineRead_data : ∀ (lines : List String) (m : FileMonitor),
    (lines.foldl FileMonitor.lineRead m).data = m.data := by
  intro lines
  induction lines with
  | nil => intro m; rfl
  | cons l rest ih => intro m; rw [List.foldl_cons, ih, lineRead_data]

theorem counterVal_check_ge (r : Rule) (line : String) (cs : CDict) (ss : SDict)
    (n : String) : counterVal cs n ≤ counterVal (r.check line cs ss).1 n := by
  cases hm : r.matcher line with
  | none => simp [Rule.check, hm]
  | some groups =>
      simp only [Rule.check, hm]
      rw [counterVal_incAll]
      exact Nat.le_add_right _ _

theorem counterVal_checkAll_ge :
    ∀ (rules : List Rule) (line : String) (cs : CDict) (ss : SDict) (n : String),
      counterVal cs n ≤ counterVal (checkAll rules line cs ss).1 n := by
  intro rules
  induction rules with
  | nil => intro line cs ss n; exact Nat.le_refl _
  | cons r rest ih =>
      intro line cs ss n
      simp only [checkAll]
      by_cases hs : (r.check line cs ss).2.2 = true
      · simp only [hs, if_true]
        exact counterVal_check_ge r line cs ss n
      · simp only [hs, if_false]
        exact Nat.le_trans (counterVal_check_ge r line cs ss n)
          (ih line (r.check line cs ss).1 (r.check line cs ss).2.1 n)

theorem counterVal_lineRead_ge (m : FileMonitor) (line : String) (n : String) :
    counterVal m.counters n ≤ counterVal (m.lineRead line).counters n :=
  counterVal_checkAll_ge m.rules line m.counters m.stores n

theorem counterVal_foldl_lineRead_ge :
    ∀ (lines : List String) (m : FileMonitor) (n : String),
      counterVal m.counters n ≤
        counterVal (lines.foldl FileMonitor.lineRead m).counters n := by
  intro lines
  induction lines with
  | nil => intro m n; exact Nat.le_refl _
  | cons line rest ih =>
      intro m n
      exact Nat.le_trans (counterVal_lineRead_ge m line n) (ih (m.lineRead line) n)

theorem counterVal_ingest_ge (m : FileMonitor) (chunk : String) (n : String) :
    counterVal m.counters n ≤ counterVal (m.ingest chunk).counters n := by
  unfold FileMonitor.ingest
  exact counterVal_foldl_lineRead_ge (splitBufferS (m.data ++ chunk)).1
    { m with data := (splitBufferS (m.data ++ chunk)).2 } n

theorem counterVal_readFrom_ge (m : FileMonitor) (content : String) (pos : Nat)
    (n : String) :
    counterVal m.counters n ≤ counterVal (m.readFrom content pos).counters n :=
  counterVal_ingest_ge m _ n

theorem counterVal_read_ge (m : FileMonitor) (ok : Bool) (content : String)
    (n : String) :
    counterVal m.counters n ≤ counterVal (m.read ok content).counters n := by
  unfold FileMonitor.read
  cases hf : m.file with
  | none =>
      cases ok
      · exact Nat.le_refl _
      · exact counterVal_readFrom_ge m content 0 n
  | some pos => exact counterVal_readFrom_ge m content pos n

theorem counterVal_applyOp_ge (m : FileMonitor) (op : MOp) (n : String) :
    counterVal m.counters n ≤ counterVal (applyOp m op).counters n := by
  cases op with
  | readOp ok content => exact counterVal_read_ge m ok content n
  | lineOp line => exact counterVal_lineRead_ge m line n
  | queryCounterOp name =>
      exact Nat.le_of_eq (counterVal_dGetD m.counters name n).symm
  | queryStoreOp name => exact Nat.le_refl _
  | setFilenameOp f => exact Nat.le_refl _

theorem counterVal_applyOps_ge :
    ∀ (ops : List MOp) (m : FileMonitor) (n : String),
      counterVal m.counters n ≤ counterVal (applyOps m ops).counters n := by
  intro ops
  induction ops with
  | nil => intro m n; exact Nat.le_refl _
  | cons op rest ih =>
      intro m n
      exact Nat.le_trans (counterVal_applyOp_ge m op n) (ih (applyOp m op) n)

theorem ingest_data_no_newline (m : FileMonitor) (chunk : String) :
    '\n' ∉ (m.ingest chunk).data.data := by
  unfold FileMonitor.ingest
  rw [foldl_lineRead_data]
  exact splitBufferL_rest_no_newline _

theorem ingest_no_newline_eq (m : FileMonitor) (chunk : String)
    (h : '\n' ∉ (m.data ++ chunk).data) :
    m.ingest chunk = { m with data := m.data ++ chunk } := by
  have hs : splitBufferS (m.data ++ chunk) = ([], m.data ++ chunk) := by
    unfold splitBufferS
    rw [splitBufferL_no_newline_eq (m.data ++ chunk).data h]
    rfl
  simp only [FileMonitor.ingest, hs, List.foldl_nil]

theorem stores_lineRead_recRule (m : FileMonitor) (line : String)
    (hr : m.rules = [recRule]) :
    (m.lineRead line).stores = dAppend m.stores "all" line := by
  simp only [FileMonitor.lineRead, hr]
  rfl

theorem foldl_lineRead_recRule :
    ∀ (lines : List String) (m : FileMonitor), m.rules = [recRule] →
      storeVal (lines.foldl FileMonitor.lineRead m).stores "all" =
        storeVal m.stores "all" ++ lines := by
  intro lines
  induction lines with
  | nil => intro m hr; simp
  | cons line rest ih =>
      intro m hr
      rw [List.foldl_cons, ih (m.lineRead line) hr,
        stores_lineRead_recRule m line hr, storeVal_dAppend]
      simp

/-- Claim C1: evaluation of a line is claimed to apply the effects of
every matching rule, in order, up to and including the first matching
rule with stop set, and a rule that does not match is claimed never to
halt evaluation.  This theorem evaluates the code at the failing input:
rule r1c1 does not match the line x yet has stop true, rule r2c1 does
match x and targets counter c; because Rule.check returns self.stop even
when the regex did not match, evaluation halts at r1c1 and counter c is
left at 0, where the claim requires it to reach 1. -/
theorem c1_stop_returned_without_match :
    r1c1.matcher "x" = none ∧ r1c1.stop = true ∧ r2c1.matcher "x" = some [] ∧
      counterVal (checkAll [r1c1, r2c1] "x" [] []).1 "c" = 0 :=
  ⟨rfl, rfl, rfl, rfl⟩

/-- Claim C2: the claim says changing filePath resets the pending
partial-line buffer to the empty string.  Evaluating the code at the
failing input: a monitor whose buffer holds stale and whose handle is
open; the filename setter closes the handle and stores the new path, but
leaves self.data untouched, so the stale content survives the change. -/
theorem c2_buffer_survives_filename_change :
    (m2c.setFilename "/tmp/new.log").data = "stale" ∧
      (m2c.setFilename "/tmp/new.log").file = none ∧
      (m2c.setFilename "/tmp/new.log").filename = "/tmp/new.log" :=
  ⟨rfl, rfl, rfl⟩

/-- Claim C5: for every rule match, the line appended to any store is the
capture groups joined by single spaces when the match has at least one
group, and the original line unchanged when it has none.  Stated
observationally: after Rule.check, every store holds its old contents
followed by one copy of the recorded line per occurrence of the store
among the rule's targets. -/
theorem c5_capture_group_substitution (r : Rule) (line : String) (cs : CDict)
    (ss : SDict) (gs : List String) (n : String)
    (h : r.matcher line = some gs) :
    storeVal (r.check line cs ss).2.1 n =
      storeVal ss n ++ List.replicate (countOcc n r.stores)
        (if gs.isEmpty then line else sjoin " " gs) := by
  simp only [Rule.check, h]
  exact storeVal_appendAll _ _ _ _

/-- Witness for C5 at concrete inputs, exercising both branches: a match
with one capture group stores the group text, and a match with no groups
stores the original line. -/
theorem c5_witness :
    storeVal ((r5.check "ERROR: disk full" [] []).2.1) "errors" = ["disk full"] ∧
      storeVal ((r5b.check "raw line" [] []).2.1) "raw" = ["raw line"] :=
  ⟨(c5_capture_group_substitution r5 "ERROR: disk full" [] [] ["disk full"]
      "errors" rfl).trans (by decide),
   (c5_capture_group_substitution r5b "raw line" [] [] [] "raw" rfl).trans
      (by decide)⟩

/-- Claim C6: delivering the bytes foo-newline-bar in one read cycle and
baz-newline in a later cycle (no filename change in between) processes
exactly two lines, foo then barbaz.  The observer rule records into the
store named all exactly the lines fed to the rules, so the store contents
witness both the lines and their order; the intermediate and final
buffers are also checked. -/
theorem c6_partial_line_across_cycles :
    storeVal ((m6.read true "foo\nbar").read true "foo\nbarbaz\n").stores "all"
        = ["foo", "barbaz"] ∧
      (m6.read true "foo\nbar").data = "bar" ∧
      ((m6.read true "foo\nbar").read true "foo\nbarbaz\n").data = "" := by
  refine ⟨by decide, rfl, rfl⟩

/-- Claim C7: a read cycle that fails to open the target file leaves the
monitor entirely unchanged (counters, stores, buffer), does not raise
past the cycle boundary (the model of the caught IOError is total), stays
Closed, and any later cycle unconditionally retries the open: a read on a
closed monitor with a successful open always installs a handle. -/
theorem c7_open_failure_is_recoverable (m : FileMonitor) (content : String)
    (h : m.file = none) :
    m.read false content = m ∧ (m.read true content).file.isSome = true := by
  constructor
  · unfold FileMonitor.read
    rw [h]
    rfl
  · unfold FileMonitor.read
    rw [h]
    rfl

/-- Witness for C7: a fresh monitor pointed at a nonexistent path. -/
theorem c7_witness :
    FileMonitor.read (FileMonitor.init "m" "/nope" 8192) false "abc"
        = FileMonitor.init "m" "/nope" 8192 ∧
      (FileMonitor.read (FileMonitor.init "m" "/nope" 8192) true "abc").file.isSome
        = true :=
  c7_open_failure_is_recoverable (FileMonitor.init "m" "/nope" 8192) "abc" rfl

/-- Counterexample to claim C3 at a concrete input: a closed monitor whose
target file already contains the line old (content old-newline) before the
open.  The claim says no line present before the open is ever fed to the
rules, yet the cycle opens at offset 0, reads the pre-existing content and
feeds the line old to the rules, as the observer store records. -/
theorem c3_counterexample :
    (m3gen 8192).file = none ∧
      storeVal ((m3gen 8192).read true "old\n").stores "all" = ["old"] := by
  refine ⟨rfl, by decide⟩

/-- Claim C3 as amended: when a Closed monitor's read cycle finds the file
openable, it opens at position 0 (Python open does not seek to the end)
and reads up to blockSize characters from the beginning, so the complete
lines among the file's first blockSize characters — pre-existing content
included — are fed to the rules.  First conjunct: the cycle equals an
ingest of the first blockSize characters with the handle left just past
them.  Second conjunct: on a fresh observer monitor the lines fed are
exactly the complete lines of that initial slice. -/
theorem c3_read_starts_at_offset_zero (m : FileMonitor) (content : String)
    (bs : Nat) :
    (m.file = none →
      m.read true content =
        { m.ingest (sliceFrom content 0 m.block_size) with
            file := some (sliceFrom content 0 m.block_size).data.length }) ∧
    storeVal ((m3gen bs).read true content).stores "all" =
      (splitBufferS (sliceFrom content 0 bs)).1 := by
  constructor
  · intro hf
    unfold FileMonitor.read
    rw [hf]
    show m.readFrom content 0 = _
    unfold FileMonitor.readFrom
    simp only [Nat.zero_add]
  · show storeVal ((m3gen bs).readFrom content 0).stores "all" = _
    unfold FileMonitor.readFrom
    show storeVal
      ((m3gen bs).ingest (sliceFrom content 0 (m3gen bs).block_size)).stores
      "all" = _
    unfold FileMonitor.ingest
    have hd : (m3gen bs).data ++ sliceFrom content 0 (m3gen bs).block_size
        = sliceFrom content 0 bs := str_empty_append _
    rw [hd, foldl_lineRead_recRule _ _ rfl]
    rfl

/-- Witness for C3's amended theorem at a concrete closed monitor and
concrete file content, discharging the Closed hypothesis. -/
theorem c3_witness :
    ((m3gen 8192).read true "old\n" =
      { (m3gen 8192).ingest (sliceFrom "old\n" 0 (m3gen 8192).block_size) with
          file := some (sliceFrom "old\n" 0 (m3gen 8192).block_size).data.length }) ∧
    storeVal ((m3gen 8192).read true "old\n").stores "all" =
      (splitBufferS (sliceFrom "old\n" 0 8192)).1 :=
  ⟨(c3_read_starts_at_offset_zero (m3gen 8192) "old\n" 8192).1 rfl,
   (c3_read_starts_at_offset_zero (m3gen 8192) "old\n" 8192).2⟩

/-- Counterexample to claim C4 at concrete inputs: the claim says a
lookup by an unknown monitor, counter or store name yields a NotFoundError
returned to the caller.  In the code an unknown monitor name hits a plain
dict and raises an uncaught KeyError (modeled none), and an unknown
counter or store name is not an error of any kind: the defaultdict
silently materializes the entry and the view renders the default. -/
theorem c4_counterexample :
    MonitorsView.getChild [] "ghost" = none ∧
      (CountersView.getChild (FileMonitor.init "m" "/tmp/x" 8192) "ghost").1 = 0 ∧
      (CountersView.getChild (FileMonitor.init "m" "/tmp/x" 8192) "ghost").2.counters
        = [("ghost", 0)] ∧
      (StoresView.getChild (FileMonitor.init "m" "/tmp/x" 8192) "ghost").1 = [] :=
  ⟨rfl, rfl, rfl, rfl⟩

/-- Claim C4 as amended: a query-surface lookup of an unknown monitor name
raises an unhandled KeyError (a crash surfaced by the serving framework,
not a typed NotFoundError); a lookup of an unknown counter or store name
raises no error at all — the defaultdict silently creates the entry and
the caller receives the default value 0, respectively the empty list. -/
theorem c4_unknown_lookup_behavior (monitors : List (String × FileMonitor))
    (m : FileMonitor) (nm : String)
    (h1 : nm ∉ monitors.map Prod.fst)
    (h2 : nm ∉ m.counters.map Prod.fst)
    (h3 : nm ∉ m.stores.map Prod.fst) :
    MonitorsView.getChild monitors nm = none ∧
      (CountersView.getChild m nm).1 = 0 ∧
      (StoresView.getChild m nm).1 = [] := by
  refine ⟨lookupD_eq_none monitors nm h1, ?_, ?_⟩
  · exact (dGetD_not_mem m.counters nm 0 h2).1
  · exact (dGetD_not_mem m.stores nm [] h3).1

/-- Witness for C4's amended theorem at concrete inputs. -/
theorem c4_witness :
    MonitorsView.getChild [] "ghost" = none ∧
      (CountersView.getChild m10 "ghost").1 = 0 ∧
      (StoresView.getChild m10 "ghost").1 = [] :=
  c4_unknown_lookup_behavior [] m10 "ghost" (by decide) (by decide) (by decide)

/-- Counterexample to claim C8 as stated: the claim says a rule is only
ever evaluated on newline-terminated lines.  With the accumulated data
x, carriage return, y, newline, the buffer split cuts at the final
newline and Python splitlines then also cuts at the bare carriage
return, so the rules are fed the line x — recorded first in the observer
store — although no newline ever immediately follows x in the data. -/
theorem c8_counterexample :
    ("x" : String).data ∈ (splitBufferL ((m3gen 8192).data ++ "x\ry\n").data).1 ∧
      storeVal ((m3gen 8192).ingest "x\ry\n").stores "all" = ["x", "y"] ∧
      ¬ ∃ pre post, ((m3gen 8192).data ++ "x\ry\n").data
          = pre ++ ("x" : String).data ++ '\n' :: post := by
  refine ⟨by decide, by decide, ?_⟩
  rintro ⟨pre, post, h⟩
  have hc : containsSeg (("x" : String).data ++ ['\n'])
      ((m3gen 8192).data ++ "x\ry\n").data = true := by
    apply containsSeg_of_decomp pre _ post
    rw [h]
    simp [List.append_assoc]
  rw [show containsSeg (("x" : String).data ++ ['\n'])
      ((m3gen 8192).data ++ "x\ry\n").data = false from by decide] at hc
  exact absurd hc (by decide)

/-- Claim C8 as amended: content after the last newline is never emitted
as a line.  First conjunct: after any ingest step the buffer the monitor
keeps never contains a newline (it is exactly the trailing content after
the last newline, held across cycles — there is no flush path, at
shutdown or otherwise).  Second conjunct: every line the buffer split
emits contains no line boundary and is terminated inside the accumulated
data by a line boundary — a newline or, because Python splitlines also
cuts at carriage returns, a bare carriage return.  Third conjunct: while
no newline has arrived, ingest only grows the buffer and the rules see
nothing — counters and stores are untouched. -/
theorem c8_unterminated_tail_never_emitted (m : FileMonitor) (chunk : String) :
    '\n' ∉ (m.ingest chunk).data.data ∧
      (∀ lc ∈ (splitBufferL (m.data ++ chunk).data).1,
        ('\n' ∉ lc ∧ '\r' ∉ lc) ∧
          ∃ pre post c, (m.data ++ chunk).data = pre ++ lc ++ c :: post ∧
            (c = '\n' ∨ c = '\r')) ∧
      ('\n' ∉ (m.data ++ chunk).data →
        m.ingest chunk = { m with data := m.data ++ chunk }) :=
  ⟨ingest_data_no_newline m chunk,
   fun lc hlc => splitBufferL_mem _ lc hlc,
   ingest_no_newline_eq m chunk⟩

/-- Witness for C8 at concrete inputs, discharging the membership premise
of the second conjunct and the no-newline premise of the third. -/
theorem c8_witness :
    '\n' ∉ ((FileMonitor.init "w" "/tmp/w.log" 8192).ingest "ab\ncd").data.data ∧
      (('\n' ∉ (['a', 'b'] : List Char) ∧ '\r' ∉ (['a', 'b'] : List Char)) ∧
        ∃ pre post c,
          ((FileMonitor.init "w" "/tmp/w.log" 8192).data ++ "ab\ncd").data
            = pre ++ ['a', 'b'] ++ c :: post ∧ (c = '\n' ∨ c = '\r')) ∧
      (FileMonitor.init "w" "/tmp/w.log" 8192).ingest "xy"
        = { FileMonitor.init "w" "/tmp/w.log" 8192 with
              data := (FileMonitor.init "w" "/tmp/w.log" 8192).data ++ "xy" } :=
  ⟨(c8_unterminated_tail_never_emitted (FileMonitor.init "w" "/tmp/w.log" 8192)
      "ab\ncd").1,
   (c8_unterminated_tail_never_emitted (FileMonitor.init "w" "/tmp/w.log" 8192)
      "ab\ncd").2.1 ['a', 'b'] (by decide),
   (c8_unterminated_tail_never_emitted (FileMonitor.init "w" "/tmp/w.log" 8192)
      "xy").2.2 (by decide)⟩

/-- Claim C9: over any sequence of monitor operations (read cycles, line
evaluations, defaultdict-backed queries, filename changes) no counter
value ever decreases, and querying a counter on a freshly constructed
monitor yields 0 rather than an absence error. -/
theorem c9_counters_monotone_and_default_zero :
    (∀ (m : FileMonitor) (ops : List MOp) (nm : String),
        counterVal m.counters nm ≤ counterVal (applyOps m ops).counters nm) ∧
      (∀ (n f : String) (b : Nat) (nm : String),
        (CountersView.getChild (FileMonitor.init n f b) nm).1 = 0) :=
  ⟨fun m ops nm => counterVal_applyOps_ge ops m nm, fun _ _ _ _ => rfl⟩

/-- Claim C10: a query-surface read of a counter or store under a name
never seen before succeeds with the default (0, respectively the empty
list) and, because the mapping is a defaultdict, inserts the name — so the
read mutates the monitor and the subsequent name-listing render now shows
the new name at the end of the insertion order. -/
theorem c10_query_materializes_entry (m : FileMonitor) (nm : String)
    (h1 : nm ∉ m.counters.map Prod.fst) (h2 : nm ∉ m.stores.map Prod.fst) :
    (CountersView.getChild m nm).1 = 0 ∧
      (CountersView.getChild m nm).2.counters.map Prod.fst
        = m.counters.map Prod.fst ++ [nm] ∧
      CountersView.render (CountersView.getChild m nm).2
        = sjoin "\n" (m.counters.map Prod.fst ++ [nm]) ++ "\n" ∧
      (StoresView.getChild m nm).1 = [] ∧
      (StoresView.getChild m nm).2.stores.map Prod.fst
        = m.stores.map Prod.fst ++ [nm] := by
  have hc := dGetD_not_mem m.counters nm 0 h1
  have hs := dGetD_not_mem m.stores nm [] h2
  refine ⟨hc.1, hc.2, ?_, hs.1, hs.2⟩
  simp only [CountersView.render, CountersView.getChild]
  rw [hc.2]

/-- Witness for C10 at a concrete monitor that already carries one
counter and one store, querying an unseen name. -/
theorem c10_witness :
    (CountersView.getChild m10 "b").1 = 0 ∧
      (CountersView.getChild m10 "b").2.counters.map Prod.fst
        = m10.counters.map Prod.fst ++ ["b"] ∧
      CountersView.render (CountersView.getChild m10 "b").2
        = sjoin "\n" (m10.counters.map Prod.fst ++ ["b"]) ++ "\n" ∧
      (StoresView.getChild m10 "b").1 = [] ∧
      (StoresView.getChild m10 "b").2.stores.map Prod.fst
        = m10.stores.map Prod.fst ++ ["b"] :=
  c10_query_materializes_entry m10 "b" (by decide) (by decide)
